import Mathlib

/-
Verification of the jetscii ASCII-set searcher against its specification.

The Rust source (src/lib.rs) is shallowly embedded below:

* `AsciiChars` holds the packed 64-bit needle and the count of pushed bytes.
* `AsciiChars.push` models `push`, with the two `assert!`s represented by
  returning `none` (a panic) when a precondition fails.
* Memory is modelled explicitly: the haystack is a `List Nat` of bytes placed
  at address `addr`, and `env : Nat -> Nat` gives the (arbitrary) contents of
  every other address.  `memByte` is the memory-read function.
* `pcmpestriIdx` models `pcmpestri $0` (equal-any, least-significant index,
  explicit lengths, result 16 when no valid byte matches) and
  `pcmpestrmMask` models `pcmpestrm $0` (equal-any bit mask over the 16
  block bytes).  `trailingZeros` models `usize::trailing_zeros` (64 for 0).
* `search_initial_unaligned_string`, `findLoop` (the `while len != 0` loop of
  `find`, recursing on the strictly decreasing `len`) and `findFull` follow
  `AsciiChars::find` line by line; `findFull` additionally records the base
  address of every 16-byte block the code reads, so that the page-safety
  claims can be stated.  `find` is the result component.
* `scalarScan` is the fallback `next_idx` (a linear `position` scan).
* `searcherNext` models `AsciiCharsSearcher::next`, parameterised by the
  `next_idx` implementation exactly as the source dispatches on cfg.
-/

structure AsciiChars where
  needle : Nat
  count : Nat
  deriving DecidableEq

def AsciiChars.new : AsciiChars := ⟨0, 0⟩

/-- `push`: `assert!(byte < 128); assert!(self.count < 8);
    self.needle <<= 8; self.needle |= byte; self.count += 1;`.
    A failed assertion (a panic) is modelled as `none`; the `u64` shift
    wraps modulo `2 ^ 64`. -/
def AsciiChars.push (a : AsciiChars) (byte : Nat) : Option AsciiChars :=
  if byte < 128 then
    if a.count < 8 then
      some ⟨(a.needle * 256 % 2 ^ 64) ||| byte, a.count + 1⟩
    else none
  else none

/-- The bytes of the needle operand that `pcmpestri`/`pcmpestrm` treat as
    valid: the low `count` 8-bit lanes of the packed `u64` (the instruction
    saturates the length register at 16). -/
def needleBytes (a : AsciiChars) : List Nat :=
  (List.range (min a.count 16)).map fun i => a.needle / 256 ^ i % 256

def isNeedle (a : AsciiChars) (b : Nat) : Bool :=
  (needleBytes a).contains b

/-- The byte of memory at address `p`: haystack bytes where the haystack
    lives, the arbitrary environment `env` everywhere else. -/
def memByte (hay : List Nat) (addr : Nat) (env : Nat → Nat) (p : Nat) : Nat :=
  if h : addr ≤ p ∧ p - addr < hay.length then hay.get ⟨p - addr, h.2⟩ else env p

/-- `pcmpestri $0`: the least index `j < 16` with `j` below the valid
    length whose block byte equals some valid needle byte; 16 when none. -/
def pcmpestriIdx (a : AsciiChars) (block : Nat → Nat) (len : Nat) : Nat :=
  ((List.range 16).filter fun j => decide (j < len) && isNeedle a (block j)).headD 16

/-- `pcmpestrm $0` with block length 16: bit `j` of the result is set
    exactly when block byte `j` equals some valid needle byte. -/
def pcmpestrmMask (a : AsciiChars) (block : Nat → Nat) : Nat :=
  ((List.range 16).map fun j => if isNeedle a (block j) then 2 ^ j else 0).sum

/-- `usize::trailing_zeros`: the least set bit index, 64 for zero. -/
def trailingZeros (n : Nat) : Nat :=
  ((List.range 64).filter fun i => decide (n / 2 ^ i % 2 = 1)).headD 64

inductive InitialMatch where
  | Complete : Option Nat → InitialMatch
  | Incomplete : Nat → InitialMatch
  deriving DecidableEq

/-- `AsciiChars::search_initial_unaligned_string`: run `pcmpestrm` over the
    aligned block at `ptr`, discard mask bits before the true start of the
    string, and translate the surviving mask exactly as the source does
    (note the source's `index > len` comparison). -/
def search_initial_unaligned_string (a : AsciiChars) (mem : Nat → Nat)
    (ptr offset len : Nat) : InitialMatch :=
  let matching_bytes := pcmpestrmMask a fun j => mem (ptr + j)
  let shifted := matching_bytes >>> offset
  if shifted ≠ 0 then
    let index := trailingZeros shifted
    if index > len then InitialMatch.Complete none
    else InitialMatch.Complete (some index)
  else
    let length_of_leading_str := 16 - offset
    if len < length_of_leading_str then InitialMatch.Complete none
    else InitialMatch.Incomplete length_of_leading_str

/-- The `while len != 0` loop of `AsciiChars::find`: `pcmpestri` over the
    aligned block at `ptr + offset` with the remaining length; on 16 advance
    one block (`len` falls by 16, saturating), otherwise return the absolute
    index.  The second component records every block base address read. -/
def findLoop (a : AsciiChars) (mem : Nat → Nat)
    (ptr initial_offset offset len : Nat) : Option Nat × List Nat :=
  if _h : len = 0 then (none, [])
  else
    let res := pcmpestriIdx a (fun j => mem (ptr + offset + j)) len
    if res = 16 then
      let rest := findLoop a mem ptr initial_offset (offset + 16) (len - 16)
      (rest.1, (ptr + offset) :: rest.2)
    else (some (res + offset - initial_offset), [ptr + offset])
termination_by len
decreasing_by omega

/-- `AsciiChars::find`, with the list of 16-byte block base addresses it
    reads as second component. -/
def findFull (a : AsciiChars) (hay : List Nat) (addr : Nat) (env : Nat → Nat) :
    Option Nat × List Nat :=
  let len := hay.length
  if len = 0 then (none, [])
  else
    let mem := memByte hay addr env
    let ptr := addr - addr % 16
    let initial_offset := addr % 16
    if initial_offset ≠ 0 then
      match search_initial_unaligned_string a mem ptr initial_offset len with
      | InitialMatch.Complete result => (result, [ptr])
      | InitialMatch.Incomplete length_of_leading_str =>
        let rest := findLoop a mem ptr initial_offset 16 (len - length_of_leading_str)
        (rest.1, ptr :: rest.2)
    else
      findLoop a mem ptr initial_offset initial_offset len

def find (a : AsciiChars) (hay : List Nat) (addr : Nat) (env : Nat → Nat) :
    Option Nat :=
  (findFull a hay addr env).1

def findReads (a : AsciiChars) (hay : List Nat) (addr : Nat) (env : Nat → Nat) :
    List Nat :=
  (findFull a hay addr env).2

/-- The fallback `next_idx`: `haystack.as_bytes().iter().cloned().position(fallback)`. -/
def scalarScan (fallback : Nat → Bool) (hay : List Nat) : Option Nat :=
  hay.findIdx? fallback

inductive SearchStep where
  | Match : Nat → Nat → SearchStep
  | Reject : Nat → Nat → SearchStep
  | Done : SearchStep
  deriving DecidableEq

structure SearcherState where
  haystack : List Nat
  offset : Nat
  deriving DecidableEq

/-- `AsciiCharsSearcher::next`, parameterised by the `next_idx`
    implementation.  Note the source's `idx.unwrap_or(self.haystack.len())`
    followed by `self.offset + idx`. -/
def searcherNext (nextIdx : List Nat → Option Nat) (s : SearcherState) :
    SearchStep × SearcherState :=
  if s.haystack.length ≤ s.offset then (SearchStep.Done, s)
  else
    let left := s.haystack.drop s.offset
    let idx := (nextIdx left).getD s.haystack.length
    if idx = 0 then
      (SearchStep.Match s.offset (s.offset + 1), ⟨s.haystack, s.offset + 1⟩)
    else
      (SearchStep.Reject s.offset (s.offset + idx), ⟨s.haystack, s.offset + idx⟩)

/-- Iterate `searcherNext` (advance the cursor `n` times). -/
def stepN (nextIdx : List Nat → Option Nat) : Nat → SearcherState → SearcherState
  | 0, s => s
  | n + 1, s => stepN nextIdx n (searcherNext nextIdx s).2

/-- The 16-byte page-boundary test string `"0123456789abcdef"`. -/
def pageStr : List Nat := [48, 49, 50, 51, 52, 53, 54, 55, 56, 57, 97, 98, 99, 100, 101, 102]

/-- The needle holding just 'f', the last character of `pageStr`. -/
def pageNeedle : AsciiChars := ⟨102, 1⟩

/-- Claim C1: the accelerated `find` is claimed to agree with the scalar
    fallback scan for every haystack and every needle set of size 1 to 8.
    It does not: with the single-byte needle set containing 0x20, the
    one-byte haystack [48] placed at an address congruent to 1 mod 16, and
    the byte 0x20 in the garbage of the surrounding aligned block, `find`
    returns `some 1` (an out-of-bounds index produced by the `index > len`
    comparison in the lead-block branch) while the scalar scan with the
    equivalent membership predicate returns `none`. -/
theorem find_diverges_from_scalarScan :
    find ⟨32, 1⟩ [48] 1 (fun _ => 32) = some 1 ∧
    scalarScan (isNeedle ⟨32, 1⟩) [48] = none := by decide

/-- Claim C2: the lead-block branch is claimed to return `None` whenever the
    mask-derived candidate index lies at or past the haystack's logical end.
    The source compares `index > len`, so a candidate index exactly equal to
    the haystack length slips through: for the needle set containing 97, the
    one-byte haystack [98] at an address congruent to 3 mod 16, with 97 in
    the surrounding block garbage, the shifted mask is nonzero with lowest
    set bit 1 = len, and `find` returns `some 1` instead of `none`. -/
theorem lead_block_off_by_one :
    search_initial_unaligned_string ⟨97, 1⟩ (memByte [98] 3 (fun _ => 97)) 0 3 1
      = InitialMatch.Complete (some 1) ∧
    find ⟨97, 1⟩ [98] 3 (fun _ => 97) = some 1 ∧ ([98] : List Nat).length = 1 := by decide

/-- Claim C3 (first-occurrence law): if `find` returns `some i` then
    `haystack[i]` should be a needle byte.  Counterexample from the same
    lead-block off-by-one: on the two-byte haystack [98, 99] at an address
    congruent to 2 mod 16 with 97 in the block garbage, `find ⟨97,1⟩`
    returns `some 2`, but index 2 is not even inside the haystack. -/
theorem find_first_occurrence_violated :
    find ⟨97, 1⟩ [98, 99] 2 (fun _ => 97) = some 2 ∧
    ¬ (2 < ([98, 99] : List Nat).length) := by decide

/-- Claim C5 (empty-haystack law): for every needle, every placement and
    every memory environment, `find` on the empty haystack returns `none`
    and reads no memory block at all. -/
theorem find_empty_haystack :
    ∀ (a : AsciiChars) (addr : Nat) (env : Nat → Nat),
      find a [] addr env = none ∧ findReads a [] addr env = [] := by
  intro a addr env
  exact ⟨rfl, rfl⟩

/-- Claim C7 (cursor partition law): the spans yielded before Done are
    claimed to partition [0, len) exactly.  They do not: on the haystack
    [97, 98] with the predicate matching byte 97, the cursor yields
    Match(0,1) and then Reject(1,3) — the final Reject ends at
    offset + haystack length = 3, overshooting the haystack of length 2,
    because `next` uses `idx.unwrap_or(self.haystack.len())` (the full
    length, not the remaining length) before adding `self.offset`. -/
theorem searcher_span_exceeds_haystack :
    (searcherNext (scalarScan fun b => b == 97) ⟨[97, 98], 0⟩).1 = SearchStep.Match 0 1 ∧
    (searcherNext (scalarScan fun b => b == 97)
      (searcherNext (scalarScan fun b => b == 97) ⟨[97, 98], 0⟩).2).1 = SearchStep.Reject 1 3 ∧
    ([97, 98] : List Nat).length = 2 ∧ ¬ (3 ≤ 2) := by decide

/-- Claim C8: the cursor offset is claimed to increase monotonically from 0
    to len(haystack).  It overshoots: on the haystack [97, 98] with the
    predicate matching byte 97, after two advances the offset is 3, strictly
    beyond the haystack length 2 (same root cause as the Reject overshoot;
    the terminal Done branch itself is reached only at offset 3). -/
theorem searcher_offset_exceeds_length :
    (stepN (scalarScan fun b => b == 97) 2 ⟨[97, 98], 0⟩).offset = 3 ∧
    ([97, 98] : List Nat).length = 2 := by decide

theorem searcherNext_haystack (nextIdx : List Nat → Option Nat) (s : SearcherState) :
    (searcherNext nextIdx s).2.haystack = s.haystack := by
  unfold searcherNext
  split
  · rfl
  · dsimp only
    split <;> rfl

theorem searcherNext_done_of_le (nextIdx : List Nat → Option Nat) (s : SearcherState)
    (h : s.haystack.length ≤ s.offset) :
    searcherNext nextIdx s = (SearchStep.Done, s) := by
  unfold searcherNext
  rw [if_pos h]

theorem searcherNext_offset_succ_le (nextIdx : List Nat → Option Nat) (s : SearcherState)
    (h : s.offset < s.haystack.length) :
    s.offset + 1 ≤ (searcherNext nextIdx s).2.offset := by
  unfold searcherNext
  rw [if_neg (by omega)]
  dsimp only
  split
  · exact Nat.le_refl _
  · rename_i hidx
    show s.offset + 1 ≤ s.offset + (nextIdx (s.haystack.drop s.offset)).getD s.haystack.length
    omega

theorem stepN_haystack (nextIdx : List Nat → Option Nat) :
    ∀ (n : Nat) (s : SearcherState), (stepN nextIdx n s).haystack = s.haystack := by
  intro n
  induction n with
  | zero => intro s; rfl
  | succ n ih =>
    intro s
    show (stepN nextIdx n (searcherNext nextIdx s).2).haystack = s.haystack
    rw [ih, searcherNext_haystack]

theorem stepN_offset_min (nextIdx : List Nat → Option Nat) :
    ∀ (n : Nat) (s : SearcherState),
      min (s.offset + n) s.haystack.length ≤ (stepN nextIdx n s).offset := by
  intro n
  induction n with
  | zero => intro s; exact Nat.le_trans (Nat.min_le_left _ _) (Nat.le_refl _)
  | succ n ih =>
    intro s
    show min (s.offset + (n + 1)) s.haystack.length
      ≤ (stepN nextIdx n (searcherNext nextIdx s).2).offset
    by_cases hlen : s.haystack.length ≤ s.offset
    · rw [searcherNext_done_of_le nextIdx s hlen]
      dsimp only
      have h1 := ih s
      omega
    · have h1 : s.offset + 1 ≤ (searcherNext nextIdx s).2.offset :=
        searcherNext_offset_succ_le nextIdx s (by omega)
      have h2 := ih (searcherNext nextIdx s).2
      rw [searcherNext_haystack] at h2
      omega

/-- Claim C9, counterexample to the claim as stated: on the final Reject
    (the advance whose `next_idx` call returns `none`) the offset is claimed
    to be set to len(haystack).  On the haystack [97, 98] with predicate
    matching 97, from offset 1 the scan of the remainder returns `none`,
    the step yields Reject(1,3) (not Done), and the new offset is 3, not
    the haystack length 2: the code adds the full haystack length to the
    current offset instead of moving the offset to the haystack length. -/
theorem searcher_final_reject_not_to_len :
    scalarScan (fun b => b == 97) (([97, 98] : List Nat).drop 1) = none ∧
    (searcherNext (scalarScan fun b => b == 97) ⟨[97, 98], 1⟩).1 = SearchStep.Reject 1 3 ∧
    (searcherNext (scalarScan fun b => b == 97) ⟨[97, 98], 1⟩).2.offset
      ≠ ([97, 98] : List Nat).length := by decide

/-- Claim C9 as amended: every advance that does not yield Done strictly
    increases the offset by at least 1 — by exactly 1 on a Match
    (`next_idx` returned `some 0`), by the match distance k ≥ 1 when
    `next_idx` returned `some k`, and by the full haystack length (not to
    the haystack length) when `next_idx` returned `none` — hence for any
    haystack the cursor yields Done after at most len(haystack) non-Done
    advances. -/
theorem searcher_progress_and_termination :
    (∀ (nextIdx : List Nat → Option Nat) (s : SearcherState) (r : SearchStep)
        (s' : SearcherState),
        searcherNext nextIdx s = (r, s') → r ≠ SearchStep.Done →
        (s.offset + 1 ≤ s'.offset ∧
          (nextIdx (s.haystack.drop s.offset) = some 0 → s'.offset = s.offset + 1) ∧
          (∀ k, nextIdx (s.haystack.drop s.offset) = some k → k ≠ 0 →
            s'.offset = s.offset + k) ∧
          (nextIdx (s.haystack.drop s.offset) = none →
            s'.offset = s.offset + s.haystack.length))) ∧
    (∀ (nextIdx : List Nat → Option Nat) (hay : List Nat) (n : Nat), hay.length ≤ n →
        (searcherNext nextIdx (stepN nextIdx n ⟨hay, 0⟩)).1 = SearchStep.Done) := by
  constructor
  · intro nextIdx s r s' h hr
    unfold searcherNext at h
    by_cases hlen : s.haystack.length ≤ s.offset
    · rw [if_pos hlen] at h
      exact absurd (congrArg Prod.fst h).symm hr
    · rw [if_neg hlen] at h
      dsimp only at h
      cases hm : nextIdx (s.haystack.drop s.offset) with
      | none =>
        rw [hm] at h
        simp only [Option.getD_none] at h
        rw [if_neg (by omega)] at h
        injection h with h1 h2
        subst h2
        refine ⟨?_, ?_, ?_, ?_⟩
        · show s.offset + 1 ≤ s.offset + s.haystack.length
          omega
        · intro hc; exact Option.noConfusion hc
        · intro k hk _; exact Option.noConfusion hk
        · intro _; rfl
      | some k =>
        rw [hm] at h
        simp only [Option.getD_some] at h
        by_cases hk : k = 0
        · subst hk
          rw [if_pos rfl] at h
          injection h with h1 h2
          subst h2
          refine ⟨?_, fun _ => rfl, ?_, ?_⟩
          · show s.offset + 1 ≤ s.offset + 1
            omega
          · intro k' hk' hne
            injection hk' with e
            exact absurd e.symm hne
          · intro hc; exact Option.noConfusion hc
        · rw [if_neg hk] at h
          injection h with h1 h2
          subst h2
          refine ⟨?_, ?_, ?_, ?_⟩
          · show s.offset + 1 ≤ s.offset + k
            omega
          · intro hc; injection hc with e; exact absurd e hk
          · intro k' hk' _
            injection hk' with e
            subst e
            rfl
          · intro hc; exact Option.noConfusion hc
  · intro nextIdx hay n hn
    have h1 := stepN_offset_min nextIdx n ⟨hay, 0⟩
    have h2 := stepN_haystack nextIdx n ⟨hay, 0⟩
    have h3 : (stepN nextIdx n ⟨hay, 0⟩).haystack.length
        ≤ (stepN nextIdx n ⟨hay, 0⟩).offset := by
      rw [h2]
      simp only [SearcherState.offset, SearcherState.haystack] at h1 ⊢
      omega
    rw [searcherNext_done_of_le nextIdx _ h3]

/-- Witness for the amended claim C9: a Match advance from offset 0 on the
    one-byte haystack [97] increases the offset to 1, and one more advance
    yields Done (at most len = 1 non-Done advances). -/
theorem searcher_progress_and_termination_witness :
    (⟨[97], 0⟩ : SearcherState).offset + 1 ≤ (⟨[97], 1⟩ : SearcherState).offset ∧
    (searcherNext (scalarScan fun b => b == 97)
      (stepN (scalarScan fun b => b == 97) 1 ⟨[97], 0⟩)).1 = SearchStep.Done :=
  ⟨(searcher_progress_and_termination.1 (scalarScan fun b => b == 97) ⟨[97], 0⟩
      (SearchStep.Match 0 1) ⟨[97], 1⟩ (by decide) (by decide)).1,
    searcher_progress_and_termination.2 (scalarScan fun b => b == 97) [97] 1 (by decide)⟩

theorem isNeedle_new (b : Nat) : isNeedle AsciiChars.new b = false := rfl

theorem pcmpestrmMask_new (block : Nat → Nat) :
    pcmpestrmMask AsciiChars.new block = 0 := by
  simp [pcmpestrmMask, isNeedle_new]

theorem pcmpestriIdx_new (block : Nat → Nat) (len : Nat) :
    pcmpestriIdx AsciiChars.new block len = 16 := by
  simp [pcmpestriIdx, isNeedle_new]

theorem findLoop_new_none (mem : Nat → Nat) (ptr i0 : Nat) :
    ∀ len offset, (findLoop AsciiChars.new mem ptr i0 offset len).1 = none := by
  intro len
  induction len using Nat.strong_induction_on with
  | _ len ih =>
    intro offset
    rw [findLoop]
    split
    · rfl
    · rename_i hlen
      simp only [pcmpestriIdx_new, if_true]
      exact ih (len - 16) (by omega) (offset + 16)

theorem search_initial_new (mem : Nat → Nat) (ptr offset len : Nat) :
    search_initial_unaligned_string AsciiChars.new mem ptr offset len
        = InitialMatch.Complete none ∨
    search_initial_unaligned_string AsciiChars.new mem ptr offset len
        = InitialMatch.Incomplete (16 - offset) := by
  unfold search_initial_unaligned_string
  simp only [pcmpestrmMask_new, Nat.zero_shiftRight]
  rw [if_neg (by simp)]
  split
  · left; rfl
  · right; rfl

theorem findLoop_zero (a : AsciiChars) (mem : Nat → Nat) (ptr i0 offset : Nat) :
    findLoop a mem ptr i0 offset 0 = (none, []) := by
  rw [findLoop]
  rfl

theorem pcmpestriIdx_congr (a : AsciiChars) (f g : Nat → Nat) (len : Nat)
    (h : ∀ j, j < 16 → j < len → f j = g j) :
    pcmpestriIdx a f len = pcmpestriIdx a g len := by
  unfold pcmpestriIdx
  have hf : (List.range 16).filter (fun j => decide (j < len) && isNeedle a (f j))
      = (List.range 16).filter (fun j => decide (j < len) && isNeedle a (g j)) := by
    apply List.filter_congr
    intro j hj
    rw [List.mem_range] at hj
    by_cases hjl : j < len
    · rw [h j hj hjl]
    · simp [hjl]
  rw [hf]

theorem mask_low_lt (a : AsciiChars) (block : Nat → Nat) :
    ∀ o : Nat,
      ((List.range o).map fun j => if isNeedle a (block j) then 2 ^ j else 0).sum < 2 ^ o := by
  intro o
  induction o with
  | zero => simp
  | succ o ih =>
    rw [List.range_succ, List.map_append, List.sum_append]
    have hp : (2 : Nat) ^ (o + 1) = 2 ^ o * 2 := by rw [pow_succ]
    simp only [List.map_cons, List.map_nil, List.sum_cons, List.sum_nil]
    by_cases hc : isNeedle a (block o)
    · rw [if_pos hc]; omega
    · rw [if_neg hc]; omega

theorem sum_map_two_pow_shift (o : Nat) (c : Nat → Bool) :
    ∀ l : List Nat,
      (l.map fun j => if c j then 2 ^ (o + j) else 0).sum
        = 2 ^ o * (l.map fun j => if c j then 2 ^ j else 0).sum := by
  intro l
  induction l with
  | nil => simp
  | cons x xs ih =>
    simp only [List.map_cons, List.sum_cons, ih, Nat.mul_add]
    congr 1
    by_cases hc : c x
    · rw [if_pos hc, if_pos hc, pow_add]
    · rw [if_neg hc, if_neg hc, Nat.mul_zero]

theorem pcmpestrmMask_split (a : AsciiChars) (block : Nat → Nat) (o : Nat) (ho : o ≤ 16) :
    pcmpestrmMask a block =
      ((List.range o).map fun j => if isNeedle a (block j) then 2 ^ j else 0).sum +
      2 ^ o *
        ((List.range (16 - o)).map fun j => if isNeedle a (block (o + j)) then 2 ^ j else 0).sum := by
  unfold pcmpestrmMask
  have h16 : (16 : Nat) = o + (16 - o) := by omega
  conv_lhs => rw [h16]
  rw [List.range_add, List.map_append, List.sum_append, List.map_map]
  congr 1
  have hc : ((fun j => if isNeedle a (block j) then 2 ^ j else 0) ∘ fun x => o + x)
      = fun j => if isNeedle a (block (o + j)) then 2 ^ (o + j) else 0 := rfl
  rw [hc, sum_map_two_pow_shift o (fun j => isNeedle a (block (o + j)))]

theorem pcmpestrmMask_shiftRight_congr (a : AsciiChars) (f g : Nat → Nat) (o : Nat)
    (ho : o ≤ 16) (h : ∀ j, o ≤ j → j < 16 → f j = g j) :
    pcmpestrmMask a f >>> o = pcmpestrmMask a g >>> o := by
  rw [pcmpestrmMask_split a f o ho, pcmpestrmMask_split a g o ho]
  have hhigh : ((List.range (16 - o)).map fun j => if isNeedle a (f (o + j)) then 2 ^ j else 0)
      = (List.range (16 - o)).map fun j => if isNeedle a (g (o + j)) then 2 ^ j else 0 := by
    apply List.map_congr_left
    intro j hj
    rw [List.mem_range] at hj
    rw [h (o + j) (by omega) (by omega)]
  rw [hhigh]
  have e : ∀ L H : Nat, L < 2 ^ o → (L + 2 ^ o * H) / 2 ^ o = H := by
    intro L H hL
    rw [Nat.add_mul_div_left _ _ (Nat.two_pow_pos o)]
    rw [Nat.div_eq_of_lt hL, Nat.zero_add]
  rw [Nat.shiftRight_eq_div_pow, Nat.shiftRight_eq_div_pow]
  rw [e _ _ (mask_low_lt a f o), e _ _ (mask_low_lt a g o)]

theorem search_initial_congr (a : AsciiChars) (mem mem' : Nat → Nat)
    (ptr offset len : Nat) (ho : offset ≤ 16)
    (h : ∀ j, offset ≤ j → j < 16 → mem (ptr + j) = mem' (ptr + j)) :
    search_initial_unaligned_string a mem ptr offset len
      = search_initial_unaligned_string a mem' ptr offset len := by
  have hm : pcmpestrmMask a (fun j => mem (ptr + j)) >>> offset
      = pcmpestrmMask a (fun j => mem' (ptr + j)) >>> offset :=
    pcmpestrmMask_shiftRight_congr a _ _ offset ho h
  simp only [search_initial_unaligned_string]
  rw [hm]

theorem search_initial_incomplete (a : AsciiChars) (mem : Nat → Nat)
    (ptr offset len l : Nat)
    (h : search_initial_unaligned_string a mem ptr offset len = InitialMatch.Incomplete l) :
    l = 16 - offset ∧ 16 - offset ≤ len := by
  simp only [search_initial_unaligned_string] at h
  split at h
  · split at h
    · exact InitialMatch.noConfusion h
    · exact InitialMatch.noConfusion h
  · split at h
    · exact InitialMatch.noConfusion h
    · rename_i hlt
      injection h with e
      exact ⟨e.symm, by omega⟩

theorem findLoop_reads (a : AsciiChars) (mem : Nat → Nat) (hayLen addr ptr i0 : Nat)
    (hptr : ptr % 16 = 0) (haddr : addr = ptr + i0) :
    ∀ len offset, offset % 16 = 0 → i0 ≤ offset → len + (offset - i0) ≤ hayLen →
      ∀ b ∈ (findLoop a mem ptr i0 offset len).2,
        b % 16 = 0 ∧ ∃ j, j < 16 ∧ addr ≤ b + j ∧ b + j < addr + hayLen := by
  intro len
  induction len using Nat.strong_induction_on with
  | _ len ih =>
    intro offset ho16 hio hlen b hb
    rw [findLoop] at hb
    by_cases h0 : len = 0
    · rw [dif_pos h0] at hb
      simp at hb
    · rw [dif_neg h0] at hb
      dsimp only at hb
      by_cases hres : pcmpestriIdx a (fun j => mem (ptr + offset + j)) len = 16
      · rw [if_pos hres] at hb
        dsimp only at hb
        rw [List.mem_cons] at hb
        rcases hb with rfl | hb
        · exact ⟨by omega, 0, by omega, by omega, by omega⟩
        · rcases le_or_lt 16 len with h16 | h16
          · exact ih (len - 16) (by omega) (offset + 16) (by omega) (by omega)
              (by omega) b hb
          · rw [show len - 16 = 0 from by omega, findLoop_zero] at hb
            simp at hb
      · rw [if_neg hres] at hb
        dsimp only at hb
        rw [List.mem_singleton] at hb
        subst hb
        exact ⟨by omega, 0, by omega, by omega, by omega⟩

theorem findFull_reads :
    ∀ (a : AsciiChars) (hay : List Nat) (addr : Nat) (env : Nat → Nat),
      ∀ b ∈ (findFull a hay addr env).2,
        b % 16 = 0 ∧ ∃ j, j < 16 ∧ addr ≤ b + j ∧ b + j < addr + hay.length := by
  intro a hay addr env b hb
  unfold findFull at hb
  dsimp only at hb
  by_cases h0 : hay.length = 0
  · rw [if_pos h0] at hb
    simp at hb
  · rw [if_neg h0] at hb
    by_cases hio : addr % 16 ≠ 0
    · rw [if_pos hio] at hb
      cases hsi : search_initial_unaligned_string a (memByte hay addr env)
          (addr - addr % 16) (addr % 16) hay.length with
      | Complete r =>
        rw [hsi] at hb
        dsimp only at hb
        rw [List.mem_singleton] at hb
        subst hb
        exact ⟨by omega, addr % 16, by omega, by omega, by omega⟩
      | Incomplete l =>
        rw [hsi] at hb
        dsimp only at hb
        rw [List.mem_cons] at hb
        obtain ⟨he, hcov⟩ := search_initial_incomplete a _ _ _ _ l hsi
        rcases hb with rfl | hb
        · exact ⟨by omega, addr % 16, by omega, by omega, by omega⟩
        · exact findLoop_reads a (memByte hay addr env) hay.length addr
            (addr - addr % 16) (addr % 16) (by omega) (by omega)
            (hay.length - l) 16 (by omega) (by omega) (by omega) b hb
    · rw [if_neg hio] at hb
      exact findLoop_reads a (memByte hay addr env) hay.length addr
        (addr - addr % 16) (addr % 16) (by omega) (by omega)
        hay.length (addr % 16) (by omega) (by omega) (by omega) b hb

/-- When the string covers the whole tail of its unaligned lead block, the
    lead-block result does not depend on the memory environment, and a
    Complete lead result is the whole result of `find`. -/
theorem findFull_lead_complete (a : AsciiChars) (hay : List Nat) (addr : Nat)
    (env : Nat → Nat) (r : Option Nat) (ptr off : Nat)
    (hptr : ptr = addr - addr % 16) (hoff : off = addr % 16)
    (h0 : hay.length ≠ 0) (hio : off ≠ 0) (hcover : 16 - off ≤ hay.length)
    (hres : search_initial_unaligned_string a (memByte hay addr (fun _ => 0))
      ptr off hay.length = InitialMatch.Complete r) :
    findFull a hay addr env = (r, [ptr]) := by
  subst hptr
  subst hoff
  have hcong : search_initial_unaligned_string a (memByte hay addr env)
      (addr - addr % 16) (addr % 16) hay.length
      = search_initial_unaligned_string a (memByte hay addr (fun _ => 0))
        (addr - addr % 16) (addr % 16) hay.length := by
    apply search_initial_congr a _ _ _ _ _ (by omega)
    intro j h1 h2
    have hin : addr ≤ addr - addr % 16 + j ∧ (addr - addr % 16 + j) - addr < hay.length := by
      constructor
      · omega
      · omega
    unfold memByte
    rw [dif_pos hin, dif_pos hin]
  unfold findFull
  dsimp only
  rw [if_neg h0, if_pos hio, hcong, hres]

/-- The concrete lead-block computations for the page-boundary scenario:
    for every nonzero suffix offset, searching the suffix of `pageStr`
    placed at 4080 + o (with zeroed environment) resolves completely in
    the lead block with the match at relative index 15 - o. -/
theorem page_lead_all :
    ∀ o ∈ List.range 16, o ≠ 0 →
      search_initial_unaligned_string pageNeedle
          (memByte (pageStr.drop o) (4080 + o) (fun _ => 0)) 4080 o
          (pageStr.drop o).length
        = InitialMatch.Complete (some (15 - o)) := by decide

theorem findFull_aligned (a : AsciiChars) (hay : List Nat) (addr : Nat) (env : Nat → Nat)
    (h0 : hay.length ≠ 0) (hio : addr % 16 = 0) :
    findFull a hay addr env
      = findLoop a (memByte hay addr env) (addr - addr % 16) (addr % 16) (addr % 16)
          hay.length := by
  unfold findFull
  dsimp only
  rw [if_neg h0, if_neg (show ¬(addr % 16 ≠ 0) from by omega)]

theorem page_findFull_zero (env : Nat → Nat) :
    findFull pageNeedle (pageStr.drop 0) (4080 + 0) env = (some 15, [4080]) := by
  rw [findFull_aligned pageNeedle (pageStr.drop 0) (4080 + 0) env (by decide) (by decide)]
  simp only [show (4080 + 0 : Nat) = 4080 from rfl,
    show (4080 : Nat) % 16 = 0 from rfl, show (4080 : Nat) - 0 = 4080 from rfl,
    show ((pageStr.drop 0 : List Nat)).length = 16 from rfl]
  rw [findLoop]
  rw [dif_neg (by decide : ¬((16 : Nat) = 0))]
  dsimp only
  have hcong : ∀ j, j < 16 → j < 16 →
      memByte (pageStr.drop 0) 4080 env (4080 + 0 + j)
        = memByte (pageStr.drop 0) 4080 (fun _ => 0) (4080 + 0 + j) := by
    intro j hj _
    have hin : 4080 ≤ 4080 + 0 + j ∧ (4080 + 0 + j) - 4080 < (pageStr.drop 0).length := by
      refine ⟨by omega, ?_⟩
      have hl : ((pageStr.drop 0 : List Nat)).length = 16 := rfl
      omega
    unfold memByte
    rw [dif_pos hin, dif_pos hin]
  rw [pcmpestriIdx_congr pageNeedle _ _ 16 hcong]
  rw [show pcmpestriIdx pageNeedle
      (fun j => memByte (pageStr.drop 0) 4080 (fun _ => 0) (4080 + 0 + j)) 16 = 15
    from by decide]
  rw [if_neg (by decide : ¬((15 : Nat) = 16))]

theorem page_findFull_pos (env : Nat → Nat) (o : Nat) (ho : o < 16) (h0 : o ≠ 0) :
    findFull pageNeedle (pageStr.drop o) (4080 + o) env = (some (15 - o), [4080]) := by
  have hplen : (pageStr.drop o).length = 16 - o := by
    simp [pageStr]
  have hres := page_lead_all o (List.mem_range.mpr ho) h0
  exact findFull_lead_complete pageNeedle (pageStr.drop o) (4080 + o) env
    (some (15 - o)) 4080 o (by omega) (by omega) (by rw [hplen]; omega) h0
    (by rw [hplen]) hres

/-- Claim C4 (page-safety contract): every 16-byte block `find` reads is
    16-byte aligned and contains at least one in-bounds haystack byte; in
    particular, with the 16-byte string `pageStr` ending exactly at the page
    boundary 4096 (placed at 4080), searching any of its 16 suffixes for its
    last byte reads no byte of the following page and returns the correct
    relative index 15 - o, whatever the rest of memory holds. -/
theorem find_reads_page_safe :
    (∀ (a : AsciiChars) (hay : List Nat) (addr : Nat) (env : Nat → Nat),
        ∀ b ∈ findReads a hay addr env,
          b % 16 = 0 ∧ ∃ j, j < 16 ∧ addr ≤ b + j ∧ b + j < addr + hay.length) ∧
    (∀ (env : Nat → Nat) (o : Nat), o < 16 →
        find pageNeedle (pageStr.drop o) (4080 + o) env = some (15 - o) ∧
        ∀ b ∈ findReads pageNeedle (pageStr.drop o) (4080 + o) env, b + 16 ≤ 4096) := by
  constructor
  · exact findFull_reads
  · intro env o ho
    by_cases h0 : o = 0
    · subst h0
      have hff := page_findFull_zero env
      refine ⟨?_, ?_⟩
      · show (findFull pageNeedle (pageStr.drop 0) (4080 + 0) env).1 = some (15 - 0)
        rw [hff]
      · intro b hb
        have hrd : findReads pageNeedle (pageStr.drop 0) (4080 + 0) env = [4080] := by
          unfold findReads
          rw [hff]
        rw [hrd, List.mem_singleton] at hb
        omega
    · have hff := page_findFull_pos env o ho h0
      refine ⟨?_, ?_⟩
      · show (findFull pageNeedle (pageStr.drop o) (4080 + o) env).1 = some (15 - o)
        rw [hff]
      · intro b hb
        have hrd : findReads pageNeedle (pageStr.drop o) (4080 + o) env = [4080] := by
          unfold findReads
          rw [hff]
        rw [hrd, List.mem_singleton] at hb
        omega

/-- Witness for claim C4 at suffix offset 3 with zeroed environment: the
    single block read is 4080, aligned and containing in-bounds bytes, the
    result is the correct relative index 12, and the read stays below the
    page boundary 4096. -/
theorem find_reads_page_safe_witness :
    ((4080 : Nat) % 16 = 0 ∧ ∃ j, j < 16 ∧ 4080 + 3 ≤ 4080 + j ∧
        4080 + j < 4080 + 3 + (pageStr.drop 3).length) ∧
    find pageNeedle (pageStr.drop 3) (4080 + 3) (fun _ => 0) = some (15 - 3) ∧
    (4080 : Nat) + 16 ≤ 4096 :=
  ⟨find_reads_page_safe.1 pageNeedle (pageStr.drop 3) (4080 + 3) (fun _ => 0) 4080
      (by decide),
    (find_reads_page_safe.2 (fun _ => 0) 3 (by decide)).1,
    (find_reads_page_safe.2 (fun _ => 0) 3 (by decide)).2 4080 (by decide)⟩

/-- The needle sets reachable through the public constructors: `new()`
    followed by any number of successful `push` calls. -/
inductive Reachable : AsciiChars → Prop where
  | new : Reachable AsciiChars.new
  | push : ∀ (a : AsciiChars) (b : Nat) (a' : AsciiChars),
      Reachable a → AsciiChars.push a b = some a' → Reachable a'

theorem reachable_invariant :
    ∀ a, Reachable a → a.count ≤ 8 ∧ a.needle < 256 ^ a.count ∧
      ∀ i, i < a.count → a.needle / 256 ^ i % 256 < 128 := by
  intro a h
  induction h with
  | new =>
    refine ⟨by decide, by decide, ?_⟩
    intro i hi
    exact absurd hi (by simp [AsciiChars.new])
  | push a b a' ha hp ih =>
    obtain ⟨ih1, ih2, ih3⟩ := ih
    unfold AsciiChars.push at hp
    by_cases hb : b < 128
    · rw [if_pos hb] at hp
      by_cases hc : a.count < 8
      · rw [if_pos hc] at hp
        injection hp with he
        subst he
        have hlt : a.needle * 256 < 2 ^ 64 := by
          calc a.needle * 256 < 256 ^ a.count * 256 :=
                (Nat.mul_lt_mul_right (by omega)).mpr ih2
            _ = 256 ^ (a.count + 1) := by rw [Nat.pow_succ]
            _ ≤ 256 ^ 8 := Nat.pow_le_pow_right (by omega) (by omega)
            _ = 2 ^ 64 := by norm_num
        have hmod : a.needle * 256 % 2 ^ 64 = a.needle * 256 := Nat.mod_eq_of_lt hlt
        have hor : a.needle * 256 ||| b = a.needle * 256 + b := by
          have hb' : b < 2 ^ 8 := by omega
          have h8 := Nat.mul_add_lt_is_or hb' a.needle
          rw [Nat.mul_comm (2 ^ 8) a.needle] at h8
          have h256 : (256 : Nat) = 2 ^ 8 := by norm_num
          rw [h256]
          exact h8.symm
        simp only [hmod, hor]
        refine ⟨by omega, ?_, ?_⟩
        · calc a.needle * 256 + b < 256 ^ a.count * 256 := by omega
            _ = 256 ^ (a.count + 1) := by rw [Nat.pow_succ]
        · intro i hi
          cases i with
          | zero =>
            rw [Nat.pow_zero, Nat.div_one, Nat.mul_comm a.needle 256, Nat.mul_add_mod]
            rw [Nat.mod_eq_of_lt (by omega)]
            exact hb
          | succ i =>
            have h1 : (256 : Nat) ^ (i + 1) = 256 * 256 ^ i := by
              rw [Nat.pow_succ, Nat.mul_comm]
            rw [h1, ← Nat.div_div_eq_div_mul]
            have h2 : (a.needle * 256 + b) / 256 = a.needle := by
              rw [Nat.mul_comm a.needle 256, Nat.mul_add_div (by omega)]
              rw [Nat.div_eq_of_lt (by omega), Nat.add_zero]
            rw [h2]
            exact ih3 i (by omega)
      · rw [if_neg hc] at hp
        exact Option.noConfusion hp
    · rw [if_neg hb] at hp
      exact Option.noConfusion hp

theorem push_some_eq (a : AsciiChars) (b : Nat) (a' : AsciiChars)
    (ha : Reachable a) (hp : AsciiChars.push a b = some a') :
    b < 128 ∧ a.count < 8 ∧ a' = ⟨a.needle * 256 + b, a.count + 1⟩ := by
  obtain ⟨h8, hn, _⟩ := reachable_invariant a ha
  unfold AsciiChars.push at hp
  by_cases hb : b < 128
  · rw [if_pos hb] at hp
    by_cases hc : a.count < 8
    · rw [if_pos hc] at hp
      injection hp with he
      refine ⟨hb, hc, ?_⟩
      rw [← he]
      have hlt : a.needle * 256 < 2 ^ 64 := by
        calc a.needle * 256 < 256 ^ a.count * 256 :=
              (Nat.mul_lt_mul_right (by omega)).mpr hn
          _ = 256 ^ (a.count + 1) := by rw [Nat.pow_succ]
          _ ≤ 256 ^ 8 := Nat.pow_le_pow_right (by omega) (by omega)
          _ = 2 ^ 64 := by norm_num
      have hor : a.needle * 256 ||| b = a.needle * 256 + b := by
        have hb' : b < 2 ^ 8 := by omega
        have h8' := Nat.mul_add_lt_is_or hb' a.needle
        rw [Nat.mul_comm (2 ^ 8) a.needle] at h8'
        have h256 : (256 : Nat) = 2 ^ 8 := by norm_num
        rw [h256]
        exact h8'.symm
      rw [Nat.mod_eq_of_lt hlt, hor]
    · rw [if_neg hc] at hp
      exact Option.noConfusion hp
  · rw [if_neg hb] at hp
    exact Option.noConfusion hp

theorem needleBytes_push (a : AsciiChars) (b : Nat) (a' : AsciiChars)
    (ha : Reachable a) (hp : AsciiChars.push a b = some a') :
    needleBytes a' = b :: needleBytes a := by
  obtain ⟨h8, hn, _⟩ := reachable_invariant a ha
  obtain ⟨hb, hc, he⟩ := push_some_eq a b a' ha hp
  subst he
  unfold needleBytes
  have hmin1 : min (a.count + 1) 16 = a.count + 1 := by omega
  have hmin0 : min a.count 16 = a.count := by omega
  rw [hmin1, hmin0, List.range_succ_eq_map, List.map_cons, List.map_map]
  refine congrArg₂ List.cons ?_ ?_
  · show (a.needle * 256 + b) / 256 ^ 0 % 256 = b
    rw [Nat.pow_zero, Nat.div_one, Nat.mul_comm a.needle 256, Nat.mul_add_mod,
      Nat.mod_eq_of_lt (by omega)]
  · apply List.map_congr_left
    intro i _
    show (a.needle * 256 + b) / 256 ^ (i + 1) % 256 = a.needle / 256 ^ i % 256
    have h1 : (256 : Nat) ^ (i + 1) = 256 * 256 ^ i := by
      rw [Nat.pow_succ, Nat.mul_comm]
    rw [h1, ← Nat.div_div_eq_div_mul]
    have h2 : (a.needle * 256 + b) / 256 = a.needle := by
      rw [Nat.mul_comm a.needle 256, Nat.mul_add_div (by omega)]
      rw [Nat.div_eq_of_lt (by omega), Nat.add_zero]
    rw [h2]

/-- Claim C6: for every reachable needle set, `push byte` panics exactly
    when the set already holds 8 bytes or the byte is not ASCII
    (byte ≥ 128); on success it appends the byte (the stored byte list
    gains exactly that byte) and increases the count by 1; consequently
    every reachable set has count ≤ 8 and only stores bytes < 128. -/
theorem push_contract :
    ∀ (a : AsciiChars) (b : Nat), Reachable a →
      ((AsciiChars.push a b = none ↔ (a.count = 8 ∨ 128 ≤ b)) ∧
        (∀ a', AsciiChars.push a b = some a' →
          a'.count = a.count + 1 ∧ needleBytes a' = b :: needleBytes a ∧ Reachable a') ∧
        (a.count ≤ 8 ∧ ∀ x ∈ needleBytes a, x < 128)) := by
  intro a b ha
  obtain ⟨h8, hn, hlane⟩ := reachable_invariant a ha
  refine ⟨?_, ?_, h8, ?_⟩
  · unfold AsciiChars.push
    by_cases hb : b < 128
    · rw [if_pos hb]
      by_cases hc : a.count < 8
      · rw [if_pos hc]
        exact ⟨fun h => Option.noConfusion h, fun h => absurd h (by omega)⟩
      · rw [if_neg hc]
        exact ⟨fun _ => Or.inl (by omega), fun _ => rfl⟩
    · rw [if_neg hb]
      exact ⟨fun _ => Or.inr (by omega), fun _ => rfl⟩
  · intro a' hp
    obtain ⟨hb, hc, he⟩ := push_some_eq a b a' ha hp
    refine ⟨by rw [he], needleBytes_push a b a' ha hp, Reachable.push a b a' ha hp⟩
  · intro x hx
    unfold needleBytes at hx
    rw [List.mem_map] at hx
    obtain ⟨i, hi, hxe⟩ := hx
    rw [List.mem_range] at hi
    rw [← hxe]
    exact hlane i (by omega)

/-- Witness for claim C6, instantiated at the empty set and the non-ASCII
    byte 200: the push fails, and the empty set satisfies the
    construction invariants. -/
theorem push_contract_witness :
    ((AsciiChars.push AsciiChars.new 200 = none
        ↔ (AsciiChars.new.count = 8 ∨ 128 ≤ 200)) ∧
      (∀ a', AsciiChars.push AsciiChars.new 200 = some a' →
        a'.count = AsciiChars.new.count + 1 ∧
        needleBytes a' = 200 :: needleBytes AsciiChars.new ∧ Reachable a') ∧
      (AsciiChars.new.count ≤ 8 ∧ ∀ x ∈ needleBytes AsciiChars.new, x < 128)) :=
  push_contract AsciiChars.new 200 Reachable.new

/-- Claim C10: with the empty needle set produced by `new()` (count 0), the
    comparison primitives report no valid needle byte, so `find` returns
    `none` on every haystack, at every placement, whatever the surrounding
    memory holds. -/
theorem find_empty_needle_none :
    ∀ (hay : List Nat) (addr : Nat) (env : Nat → Nat),
      find AsciiChars.new hay addr env = none := by
  intro hay addr env
  unfold find findFull
  dsimp only
  by_cases h0 : hay.length = 0
  · rw [if_pos h0]
  · rw [if_neg h0]
    by_cases hio : addr % 16 ≠ 0
    · rw [if_pos hio]
      rcases search_initial_new (memByte hay addr env) (addr - addr % 16) (addr % 16)
          hay.length with h | h
      · rw [h]
      · rw [h]
        exact findLoop_new_none (memByte hay addr env) (addr - addr % 16) (addr % 16) _ 16
    · rw [if_neg hio]
      exact findLoop_new_none (memByte hay addr env) (addr - addr % 16) (addr % 16)
        hay.length (addr % 16)
